import Mathlib

set_option maxHeartbeats 1000000
set_option maxRecDepth 100000

/-
Shallow embedding of the multi-plane RANSAC pipeline of
src/source/ransac.cpp (plane detection in 3-D point clouds).

Float arithmetic of the source is modelled over the exact rationals ℚ.
The external collaborators of the pipeline (the OpenCV random number
generator `cv::RNG`, the in-place shuffle `cv::randShuffle`, the symmetric
eigen-decomposition `cv::eigen`, and the bucket order of the
`std::unordered_map` used by `VoxelGrid`) are modelled as oracle
parameters, so every theorem below quantifies over all of their possible
behaviours, and every concrete run fixes one concrete behaviour.
-/

namespace Ransac

/-- A 3-D point with rational coordinates (a row of the `CV_32F` point
matrix of the source). -/
structure Point where
  x : ℚ
  y : ℚ
  z : ℚ
  deriving DecidableEq, Repr

/-- A plane `a·x + b·y + c·z + d = 0` (`cv::Vec4f` in the source). -/
structure Plane where
  a : ℚ
  b : ℚ
  c : ℚ
  d : ℚ
  deriving DecidableEq, Repr

def pt0 : Point := ⟨0, 0, 0⟩

def pl0 : Plane := ⟨0, 0, 0, 0⟩

def psub (p q : Point) : Point := ⟨p.x - q.x, p.y - q.y, p.z - q.z⟩

def vdot (p q : Point) : ℚ := p.x * q.x + p.y * q.y + p.z * q.z

def vcross (p q : Point) : Point :=
  ⟨p.y * q.z - p.z * q.y, p.z * q.x - p.x * q.z, p.x * q.y - p.y * q.x⟩

/-- `a·x + b·y + c·z + d` for a point. -/
def evalPlane (m : Plane) (p : Point) : ℚ := m.a * p.x + m.b * p.y + m.c * p.z + m.d

/-- Squared norm of the plane normal. -/
def normSq (m : Plane) : ℚ := m.a * m.a + m.b * m.b + m.c * m.c

/-- The per-point test of `get_inliers` (ransac.cpp:477/485): after dividing
the plane by `sqrt(a²+b²+c²)` the source tests `fabs(a·x+b·y+c·z+d) < thr`.
Over ℚ this is `(a·x+b·y+c·z+d)² < thr² · (a²+b²+c²)` together with
`0 < thr`; a zero normal yields no inliers, exactly as the source's
division by zero does. -/
def isInlier (m : Plane) (thr : ℚ) (p : Point) : Bool :=
  decide (0 < thr ∧ evalPlane m p * evalPlane m p < thr * thr * normSq m)

/-- The pruned tail loop of `get_inliers` (ransac.cpp:483-491): each point is
scored, then the loop stops if `num_inliers + pts_size - p < best_inls`,
where `pts_size - p` equals `rest.length + 1` for the point just scored.
Unvisited entries of the mask remain `false`. -/
def prunedScan (inl : Point → Bool) (best : ℕ) : List Point → ℕ → ℕ × List Bool
  | [], num => (num, [])
  | pt :: rest, num =>
    let b := inl pt
    let num' := if b then num + 1 else num
    if num' + rest.length + 1 < best then
      (num', b :: List.replicate rest.length false)
    else
      let r := prunedScan inl best rest num'
      (r.1, b :: r.2)

/-- `get_inliers` (ransac.cpp:464-493): the first `⌊2N/3⌋` points are always
scored, the rest are scored under the pruning rule. Returns the inlier
count and the inlier mask. -/
def get_inliers (m : Plane) (pts : List Point) (thr : ℚ) (best : ℕ) : ℕ × List Bool :=
  let inl := isInlier m thr
  let cut := pts.length * 2 / 3
  let front := pts.take cut
  let r := prunedScan inl best (pts.drop cut) (front.countP inl)
  (r.1, front.map inl ++ r.2)

/-- `check_same_normal` (ransac.cpp:624-636): accepts iff
`(dot² − |n|²·|t|²)² ≤ thr · |n|²·|t|²`. -/
def check_same_normal (m : Plane) (t : Point) (thr : ℚ) : Bool :=
  let dot := m.a * t.x + m.b * t.y + m.c * t.z
  let sqa := m.a * m.a + m.b * m.b + m.c * m.c
  let sqb := t.x * t.x + t.y * t.y + t.z * t.z
  decide ((dot * dot - sqa * sqb) * (dot * dot - sqa * sqb) ≤ thr * (sqa * sqb))

/-- A symmetric 3×3 matrix, given by rows (the scatter matrix `Uᵀ·U` of
ransac.cpp:434). -/
structure Mat3 where
  r1 : Point
  r2 : Point
  r3 : Point
  deriving DecidableEq, Repr

def mat0 : Mat3 := ⟨pt0, pt0, pt0⟩

def outerAcc (m : Mat3) (u : Point) : Mat3 :=
  ⟨⟨m.r1.x + u.x * u.x, m.r1.y + u.x * u.y, m.r1.z + u.x * u.z⟩,
   ⟨m.r2.x + u.y * u.x, m.r2.y + u.y * u.y, m.r2.z + u.y * u.z⟩,
   ⟨m.r3.x + u.z * u.x, m.r3.y + u.z * u.y, m.r3.z + u.z * u.z⟩⟩

/-- Centroid of the sampled points (ransac.cpp:410-418). -/
def sampleMean (pts : List Point) (sample : List ℕ) : Point :=
  let n : ℚ := sample.length
  let s := sample.foldl
    (fun acc i =>
      ⟨acc.x + (pts.getD i pt0).x, acc.y + (pts.getD i pt0).y, acc.z + (pts.getD i pt0).z⟩)
    pt0
  ⟨s.x / n, s.y / n, s.z / n⟩

/-- The scatter matrix `Uᵀ·U` of the centered sample (ransac.cpp:420-435). -/
def scatter (pts : List Point) (sample : List ℕ) : Mat3 :=
  (sample.map (fun i => psub (pts.getD i pt0) (sampleMean pts sample))).foldl outerAcc mat0

/-- The collinearity test of ransac.cpp:398-409 for a 3-point sample:
true iff `|(ca·ba)² − (ba·ba)·(ca·ca)| < 0.0001` where `ba = p1 − p2`,
`ca = p1 − p3`. -/
def collin3 (p1 p2 p3 : Point) : Bool :=
  decide (|vdot (psub p1 p3) (psub p1 p2) * vdot (psub p1 p3) (psub p1 p2) -
      vdot (psub p1 p2) (psub p1 p2) * vdot (psub p1 p3) (psub p1 p3)| < 1 / 10000)

/-- The eigen-decomposition step of the estimator (ransac.cpp:437-449):
the eigenvector of the smallest eigenvalue (modelled by the oracle `eig`)
becomes the normal; a zero normal is rejected (`isinf` cannot occur over
ℚ); `d = −(a·cx + b·cy + c·cz)`. -/
def tlsCore (eig : Mat3 → Point) (pts : List Point) (sample : List ℕ) : Option Plane :=
  let c := sampleMean pts sample
  let v := eig (scatter pts sample)
  if v = pt0 then none
  else some ⟨v.x, v.y, v.z, -(v.x * c.x + v.y * c.y + v.z * c.z)⟩

/-- `total_least_squares_plane_estimate` (ransac.cpp:394-450): for exactly 3
samples the collinearity test rejects first; then the TLS fit via the
eigen-decomposition oracle. -/
def total_least_squares_plane_estimate (eig : Mat3 → Point) (pts : List Point)
    (sample : List ℕ) : Option Plane :=
  if sample.length = 3 then
    if collin3 (pts.getD (sample.getD 0 0) pt0) (pts.getD (sample.getD 1 0) pt0)
        (pts.getD (sample.getD 2 0) pt0) then none
    else tlsCore eig pts sample
  else tlsCore eig pts sample

/-- Modelled from the spec: the symmetric eigen-decomposition routine
(`cv::eigen`) is an external collaborator (spec sections 1 and 4.2, "the
plane normal is the eigenvector of the smallest eigenvalue"). For a sample
of exactly three points the scatter matrix annihilates the cross product
of the two edge vectors, so the smallest-eigenvalue eigenvector is a
scalar multiple of that cross product; the returned scale is irrelevant
because the estimator only tests it against zero. -/
def specEig3 (p1 p2 p3 : Point) : Mat3 → Point :=
  fun _ => vcross (psub p1 p2) (psub p1 p3)

/-- The estimator applied to a concrete sample of exactly three points,
with the eigen-decomposition behaving as the spec describes. -/
def tls3 (p1 p2 p3 : Point) : Option Plane :=
  total_least_squares_plane_estimate (specEig3 p1 p2 p3) [p1, p2, p3] [0, 1, 2]

/-- The external collaborators of the pipeline, modelled as oracles:
`draw t` is the t-th raw value of `cv::RNG::uniform` (reduced mod the pool
size at use), `shuffle t pool` is the t-th `cv::randShuffle` of the index
pool, `voxel` is `VoxelGrid` (its output order is the unspecified bucket
order of a `std::unordered_map`, spec section 4.1), `eig` is `cv::eigen`
restricted to the smallest-eigenvalue eigenvector (the third row that
ransac.cpp:442 reads), and `cap best n` is the value
`3·ln(1−0.95)/ln(1−(best/n)³)` of ransac.cpp:579 truncated to an integer,
`none` when `isinf` holds. -/
structure Oracle where
  draw : ℕ → ℕ
  shuffle : ℕ → List ℕ → List ℕ
  voxel : List Point → List Point
  eig : Mat3 → Point
  cap : ℕ → ℕ → Option ℕ

/-- The optional normal constraint: target normal and `normal_diff_thr`. -/
def normalOk (nrm : Option (Point × ℚ)) (m : Plane) : Bool :=
  match nrm with
  | none => true
  | some nt => check_same_normal m nt.1 nt.2

/-- The inlier-sample collection loop (ransac.cpp:553-560 and 183-189):
walk the shuffled pool, keep the indices whose mask entry is true, stop
at `cap` samples. -/
def sampleCollect (mask : List Bool) (pool : List ℕ) (cap : ℕ) : List ℕ :=
  (pool.filter (fun p => mask.getD p false)).take cap

/-- State shared by the two local-optimization loops (ransac.cpp:549-577
and 180-207): shuffle counter, index pool, current best plane and count,
the mask and count left by the last `get_inliers` call (the C arrays are
overwritten by every scoring call, adopted or not), and the ghost trace
of sample counts passed to the estimator. -/
structure LOState where
  t : ℕ
  pool : List ℕ
  best : Plane
  bestInls : ℕ
  mask : List Bool
  lastNum : ℕ
  scnts : List ℕ
  deriving Repr

/-- The inlier sample drawn by one local-optimization round: the pool is
shuffled first (ransac.cpp:550/181), then scanned with the current mask. -/
def loSample (o : Oracle) (cap : ℕ) (st : LOState) : List ℕ :=
  sampleCollect st.mask (o.shuffle st.t st.pool) cap

/-- The bookkeeping every local-optimization round performs whatever its
outcome: the shuffled pool replaces the old one, the shuffle counter
advances, and the ghost trace records the sample count handed to the
estimator. -/
def loSampled (o : Oracle) (cap : ℕ) (st : LOState) : LOState :=
  { st with
    t := st.t + 1
    pool := o.shuffle st.t st.pool
    scnts := st.scnts ++ [(loSample o cap st).length] }

/-- One round of the bounded local-optimization loop (ransac.cpp:549-577,
reused at 180-207): refit from up to `cap` inlier samples, check the
optional normal constraint, re-score with the current best as pruning
bound; adopt if strictly better; the Bool is the `break` of the tie case
(ransac.cpp:574-576 and 204-206). -/
def loBody (o : Oracle) (pts : List Point) (thr : ℚ) (nrm : Option (Point × ℚ))
    (cap : ℕ) (st : LOState) : LOState × Bool :=
  match total_least_squares_plane_estimate o.eig pts (loSample o cap st) with
  | none => (loSampled o cap st, false)
  | some lo =>
    if normalOk nrm lo then
      if st.bestInls < (get_inliers lo pts thr st.bestInls).1 then
        ({ loSampled o cap st with
            best := lo
            bestInls := (get_inliers lo pts thr st.bestInls).1
            mask := (get_inliers lo pts thr st.bestInls).2
            lastNum := (get_inliers lo pts thr st.bestInls).1 }, false)
      else if st.bestInls = (get_inliers lo pts thr st.bestInls).1 then
        ({ loSampled o cap st with
            mask := (get_inliers lo pts thr st.bestInls).2
            lastNum := (get_inliers lo pts thr st.bestInls).1 }, true)
      else
        ({ loSampled o cap st with
            mask := (get_inliers lo pts thr st.bestInls).2
            lastNum := (get_inliers lo pts thr st.bestInls).1 }, false)
    else (loSampled o cap st, false)

/-- The bounded local-optimization loop: up to `fuel` rounds, stopping
early when a round signals the tie break. -/
def loLoop (o : Oracle) (pts : List Point) (thr : ℚ) (nrm : Option (Point × ℚ))
    (cap : ℕ) : ℕ → LOState → LOState
  | 0, st => st
  | fuel + 1, st =>
    if (loBody o pts thr nrm cap st).2 then (loBody o pts thr nrm cap st).1
    else loLoop o pts thr nrm cap fuel (loBody o pts thr nrm cap st).1

/-- State of the main RANSAC loop of `get_plane` (ransac.cpp:530-587):
draw/shuffle counter, shared index pool, best model (unset until a first
adoption), best count, last scored mask and count, the mutable iteration
bound `max_iterations`, the iteration counter, and the ghost trace of the
bound after each iteration. -/
structure GPState where
  t : ℕ
  pool : List ℕ
  best : Option Plane
  bestInls : ℕ
  mask : List Bool
  lastNum : ℕ
  maxIter : ℕ
  iter : ℕ
  trace : List ℕ
  deriving Repr

/-- `max_iterations = maxHyp` when `maxHyp` is finite and below the current
bound (ransac.cpp:582-585). -/
def capUpdate (cap : ℕ → ℕ → Option ℕ) (best n m : ℕ) : ℕ :=
  match cap best n with
  | none => m
  | some h => if h < m then h else m

/-- The local-optimization run started right after a main-loop adoption
(ransac.cpp:545-577): the freshly adopted model, count and mask seed the
loop, `num_inliers` was just set to the same count, and the loop runs for
up to 10 rounds with 20 samples each. -/
def gpLO (o : Oracle) (pts : List Point) (thr : ℚ) (nrm : Option (Point × ℚ))
    (st : GPState) (m : Plane) : LOState :=
  loLoop o pts thr nrm 20 10
    ⟨st.t + 3, st.pool, m, (get_inliers m pts thr st.bestInls).1,
      (get_inliers m pts thr st.bestInls).2, (get_inliers m pts thr st.bestInls).1, []⟩

/-- The state after the adoption branch of the main loop: the
local-optimization result is copied back and the adaptive iteration bound
is updated (ransac.cpp:579-585). -/
def gpAdopt (o : Oracle) (pts : List Point) (thr : ℚ) (nrm : Option (Point × ℚ))
    (st : GPState) (m : Plane) : GPState :=
  { st with
    t := (gpLO o pts thr nrm st m).t
    pool := (gpLO o pts thr nrm st m).pool
    best := some (gpLO o pts thr nrm st m).best
    bestInls := (gpLO o pts thr nrm st m).bestInls
    mask := (gpLO o pts thr nrm st m).mask
    lastNum := (gpLO o pts thr nrm st m).lastNum
    maxIter := capUpdate o.cap (gpLO o pts thr nrm st m).bestInls pts.length st.maxIter }

/-- One iteration of the main loop of `get_plane` (ransac.cpp:531-586):
draw a minimal sample of 3 indices, fit, check the optional normal
constraint, score with the running best as pruning bound; on a strict
improvement adopt, run local optimization and update the adaptive
iteration bound. -/
def gpBody (o : Oracle) (pts : List Point) (thr : ℚ) (nrm : Option (Point × ℚ))
    (st : GPState) : GPState :=
  match total_least_squares_plane_estimate o.eig pts
      [o.draw st.t % pts.length, o.draw (st.t + 1) % pts.length,
        o.draw (st.t + 2) % pts.length] with
  | none => { st with t := st.t + 3 }
  | some m =>
    if normalOk nrm m then
      if st.bestInls < (get_inliers m pts thr st.bestInls).1 then
        gpAdopt o pts thr nrm st m
      else
        { st with
          t := st.t + 3
          mask := (get_inliers m pts thr st.bestInls).2
          lastNum := (get_inliers m pts thr st.bestInls).1 }
    else { st with t := st.t + 3 }

/-- The main loop of `get_plane`: run iterations while `iter < maxIter`;
the fuel argument (instantiated with the caller's `max_iterations`)
dominates the loop because `maxIter` never grows. The ghost trace records
`maxIter` after each executed iteration. -/
def gpLoop (o : Oracle) (pts : List Point) (thr : ℚ) (nrm : Option (Point × ℚ)) :
    ℕ → GPState → GPState
  | 0, st => st
  | fuel + 1, st =>
    if st.iter < st.maxIter then
      let st' := gpBody o pts thr nrm st
      gpLoop o pts thr nrm fuel
        { st' with iter := st'.iter + 1, trace := st'.trace ++ [st'.maxIter] }
    else st

/-- Result of `get_plane`: inlier count, best model (none when no model was
ever adopted, the out-parameter of the source is then never written), the
final inlier mask, and the ghost budget trace. -/
structure GPResult where
  inls : ℕ
  model : Option Plane
  mask : List Bool
  trace : List ℕ
  deriving Repr

/-- `get_plane` (ransac.cpp:514-594): returns 0 for fewer than 3 points;
otherwise runs the main loop and, when `best_inls != 0 && best_inls >=
num_inliers`, refreshes count and mask by an exhaustive re-scoring of the
best model (ransac.cpp:592). -/
def get_plane (o : Oracle) (pts : List Point) (thr : ℚ) (maxIter : ℕ)
    (nrm : Option (Point × ℚ)) : GPResult :=
  if pts.length < 3 then ⟨0, none, List.replicate pts.length false, []⟩
  else
    let st := gpLoop o pts thr nrm maxIter
      ⟨0, List.range pts.length, none, 0, List.replicate pts.length false, 0, maxIter, 0, []⟩
    if st.bestInls ≠ 0 ∧ st.lastNum ≤ st.bestInls then
      match st.best with
      | some m =>
        let r := get_inliers m pts thr 0
        ⟨r.1, some m, r.2, st.trace⟩
      | none => ⟨st.bestInls, none, st.mask, st.trace⟩
    else ⟨st.bestInls, st.best, st.mask, st.trace⟩

/-- Keep the entries whose mask bit is true (the inlier side of the
compaction loops). -/
def selectTrue {α : Type} : List α → List Bool → List α
  | [], _ => []
  | _ :: _, [] => []
  | a :: l, b :: m => if b then a :: selectTrue l m else selectTrue l m

/-- Keep the entries whose mask bit is false (the compaction of the working
set at ransac.cpp:122-131 and 238-250). -/
def selectFalse {α : Type} : List α → List Bool → List α
  | [], _ => []
  | _ :: _, [] => []
  | a :: l, b :: m => if b then selectFalse l m else a :: selectFalse l m

/-- Phase A of `get_planes` (ransac.cpp:93-132): up to `desired` rounds of
`get_plane` on a shrinking working set; a round with 0 inliers stops the
phase; after the last requested round no compaction happens. -/
def phaseA (o : Oracle) (thr : ℚ) (maxIter : ℕ) (nrm : Option (Point × ℚ)) :
    ℕ → List Point → List Plane
  | 0, _ => []
  | d + 1, pts =>
    let r := get_plane o pts thr maxIter nrm
    if r.inls = 0 then []
    else
      match r.model with
      | none => []
      | some m =>
        if d = 0 then [m]
        else m :: phaseA o thr maxIter nrm d (selectFalse pts r.mask)

/-- The insertion scan of ransac.cpp:211-212: advance while
`best_inls < plane_inls_num[e]`; the resulting index is where the new
plane and count are inserted. -/
def rankedPos (best : ℕ) : List ℕ → ℕ
  | [] => 0
  | n :: ns => if best < n then rankedPos best ns + 1 else 0

/-- Insertion into a list at a position (`std::vector::insert`); positions
past the end append, which the source never reaches because the ranked
count list keeps its 0 sentinel at the back. -/
def insertAt {α : Type} : ℕ → α → List α → List α
  | 0, a, l => a :: l
  | _ + 1, a, [] => [a]
  | n + 1, a, x :: xs => x :: insertAt n a xs

/-- Write `labels[i] := k` for every write event `(i, k)`
(`labels_ptr[orig_pts_idx[p]] = plane_num` at ransac.cpp:229/248). -/
def writeLabels (labels : List ℕ) (ws : List (ℕ × ℕ)) : List ℕ :=
  ws.foldl (fun ls w => ls.set w.1 w.2) labels

/-- State threaded through Phase B of `get_planes` (ransac.cpp:146-251):
the full-resolution working set, the original-index remap array
`orig_pts_idx`, the label map, the ranked plane list and its count list
(count list initialized with the 0 sentinel), the shuffle counter, and
three ghost traces: the refined model of each round in discovery order,
the label write events `(original index, round number)`, and the sample
counts passed to the estimator. -/
structure BState where
  pts : List Point
  orig : List ℕ
  labels : List ℕ
  planes : List Plane
  nums : List ℕ
  t : ℕ
  rounds : List Plane
  writes : List (ℕ × ℕ)
  scnts : List ℕ
  deriving Repr

/-- The Phase-B refinement of one candidate (ransac.cpp:173-209): score the
candidate exhaustively, then run the local-optimization loop with
`max_lo_iters = 3` rounds and `max_lo_inliers = 300` samples
(ransac.cpp:147) on a fresh identity pool. -/
def bRefine (o : Oracle) (thr : ℚ) (nrm : Option (Point × ℚ)) (st : BState)
    (cand : Plane) : LOState :=
  loLoop o st.pts thr nrm 300 3
    ⟨st.t, List.range st.pts.length, cand,
      (get_inliers cand st.pts thr 0).1, (get_inliers cand st.pts thr 0).2, 0, []⟩

/-- The count and mask a Phase-B round labels and compacts with: after the
local optimization, `if (best_inls >= lo_inls)` both are refreshed by an
exhaustive re-scoring of the best model (ransac.cpp:209). -/
def roundMask (o : Oracle) (thr : ℚ) (nrm : Option (Point × ℚ)) (st : BState)
    (cand : Plane) : ℕ × List Bool :=
  let lo := bRefine o thr nrm st cand
  if lo.lastNum ≤ lo.bestInls then get_inliers lo.best st.pts thr 0
  else (lo.bestInls, lo.mask)

/-- The label write events of round `k`: the original indices of the
mask-true points of the working set, each labeled `k`. -/
def wsOf (o : Oracle) (thr : ℚ) (nrm : Option (Point × ℚ)) (k : ℕ) (st : BState)
    (cand : Plane) : List (ℕ × ℕ) :=
  (selectTrue st.orig (roundMask o thr nrm st cand).2).map (fun i => (i, k))

/-- One round of Phase B (ransac.cpp:165-251): refine the candidate, insert
model and count at the ranked position, then either (last candidate)
label the inliers and stop, or label the inliers and compact the working
set and the remap array in lockstep. -/
def phaseBStep (o : Oracle) (thr : ℚ) (nrm : Option (Point × ℚ)) (k : ℕ)
    (cand : Plane) (isLast : Bool) (st : BState) : BState :=
  if isLast then
    { st with
      t := (bRefine o thr nrm st cand).t,
      planes := insertAt (rankedPos (roundMask o thr nrm st cand).1 st.nums)
        (bRefine o thr nrm st cand).best st.planes,
      nums := insertAt (rankedPos (roundMask o thr nrm st cand).1 st.nums)
        (roundMask o thr nrm st cand).1 st.nums,
      rounds := st.rounds ++ [(bRefine o thr nrm st cand).best],
      scnts := st.scnts ++ (bRefine o thr nrm st cand).scnts,
      labels := writeLabels st.labels (wsOf o thr nrm k st cand),
      writes := st.writes ++ wsOf o thr nrm k st cand }
  else
    { pts := selectFalse st.pts (roundMask o thr nrm st cand).2,
      orig := selectFalse st.orig (roundMask o thr nrm st cand).2,
      labels := writeLabels st.labels (wsOf o thr nrm k st cand),
      planes := insertAt (rankedPos (roundMask o thr nrm st cand).1 st.nums)
        (bRefine o thr nrm st cand).best st.planes,
      nums := insertAt (rankedPos (roundMask o thr nrm st cand).1 st.nums)
        (roundMask o thr nrm st cand).1 st.nums,
      t := (bRefine o thr nrm st cand).t,
      rounds := st.rounds ++ [(bRefine o thr nrm st cand).best],
      writes := st.writes ++ wsOf o thr nrm k st cand,
      scnts := st.scnts ++ (bRefine o thr nrm st cand).scnts }

/-- The Phase-B loop over the candidate planes, `k` being the 1-based round
number `plane_num`; the last candidate takes the early-stop branch of
ransac.cpp:226-232. -/
def phaseBLoop (o : Oracle) (thr : ℚ) (nrm : Option (Point × ℚ)) :
    List Plane → ℕ → BState → BState
  | [], _, st => st
  | [c], k, st => phaseBStep o thr nrm k c true st
  | c :: c2 :: cs, k, st =>
    phaseBLoop o thr nrm (c2 :: cs) (k + 1) (phaseBStep o thr nrm k c false st)

/-- `get_planes` (ransac.cpp:30-264): optional voxel downsampling, Phase A
candidate collection on the (possibly downsampled) cloud, then Phase B
refinement, ranking and labeling on the original cloud. -/
def get_planes (o : Oracle) (cloud : List Point) (thr : ℚ) (maxIter : ℕ)
    (desired : ℕ) (gridSize : ℚ) (nrm : Option (Point × ℚ)) : BState :=
  let fitCloud := if 0 < gridSize then o.voxel cloud else cloud
  let cands := phaseA o thr maxIter nrm desired fitCloud
  phaseBLoop o thr nrm cands 1
    ⟨cloud, List.range cloud.length, List.replicate cloud.length 0, [], [0], 0, [], [], []⟩

/-- A concrete oracle behaviour used by the counterexample runs: the t-th
raw draw is t, every shuffle leaves the pool unchanged, downsampling is
the identity, the eigen-decomposition always answers `(0,0,1)` (exact for
every sample taken from a horizontal plane), and the adaptive cap is
always infinite. -/
def oId : Oracle := ⟨fun t => t, fun _ l => l, id, fun _ => ⟨0, 0, 1⟩, fun _ _ => none⟩

/-- Two horizontal planes: three points on `z = 0`, five points on
`z = 10`. Phase A (thr = 1, one iteration per round, two rounds) finds
the small plane first, then the large one. -/
def cloudC1 : List Point :=
  [⟨0, 0, 0⟩, ⟨1, 0, 0⟩, ⟨0, 1, 0⟩, ⟨0, 0, 10⟩, ⟨1, 0, 10⟩, ⟨0, 1, 10⟩, ⟨2, 0, 10⟩, ⟨0, 2, 10⟩]

def runC1 : BState := get_planes oId cloudC1 1 1 2 0 none

/-- Two horizontal planes of three points each: the two Phase-B rounds
produce equal inlier counts. -/
def cloudC3 : List Point :=
  [⟨0, 0, 0⟩, ⟨1, 0, 0⟩, ⟨0, 1, 0⟩, ⟨0, 0, 10⟩, ⟨1, 0, 10⟩, ⟨0, 1, 10⟩]

def runC3 : BState := get_planes oId cloudC3 1 1 2 0 none

/-- Twenty-one points on the plane `z = 0` (the third one off the x-axis so
that the minimal sample is not collinear): the single Phase-B round
collects 21 inlier samples for its refit. -/
def cloudC2 : List Point :=
  (List.range 21).map (fun j => if j = 2 then ⟨0, 1, 0⟩ else ⟨(j : ℚ), 0, 0⟩)

def runC2 : BState := get_planes oId cloudC2 1 1 1 0 none

/-- The invariant carried across the Phase-B rounds: the remap array is
duplicate-free and points into an unlabeled region of the label map, the
working set is the restriction of the original cloud along the remap
array, every nonzero label is backed by exactly one write event, every
write event names an inlier of the plane of its round, and every
completed round's plane is in the ranked output list. -/
structure BInv (cloud0 : List Point) (thr : ℚ) (k : ℕ) (st : BState) : Prop where
  orig_nodup : st.orig.Nodup
  orig_lt : ∀ i ∈ st.orig, i < st.labels.length
  orig_label0 : ∀ i ∈ st.orig, st.labels.getD i 0 = 0
  labels_len : st.labels.length = cloud0.length
  pts_orig : List.Forall₂ (fun p i => p = cloud0.getD i pt0) st.pts st.orig
  writes_nodup : (st.writes.map Prod.fst).Nodup
  labels_writes : ∀ i : ℕ, st.labels.getD i 0 ≠ 0 → (i, st.labels.getD i 0) ∈ st.writes
  writes_label : ∀ w ∈ st.writes, st.labels.getD w.1 0 = w.2
  writes_not_orig : ∀ w ∈ st.writes, w.1 ∉ st.orig
  writes_round : ∀ w ∈ st.writes, 1 ≤ w.2 ∧ w.2 ≤ st.rounds.length ∧
    isInlier (st.rounds.getD (w.2 - 1) pl0) thr (cloud0.getD w.1 pt0) = true
  k_eq : k = st.rounds.length + 1
  rounds_planes : ∀ q ∈ st.rounds, q ∈ st.planes

/-- What survives of the invariant at the end of Phase B (the final round
labels without compacting, so the orig-related clauses are dropped). -/
structure BFinal (cloud0 : List Point) (thr : ℚ) (st : BState) : Prop where
  writes_nodup : (st.writes.map Prod.fst).Nodup
  labels_writes : ∀ i : ℕ, st.labels.getD i 0 ≠ 0 → (i, st.labels.getD i 0) ∈ st.writes
  writes_label : ∀ w ∈ st.writes, st.labels.getD w.1 0 = w.2
  writes_round : ∀ w ∈ st.writes, 1 ≤ w.2 ∧ w.2 ≤ st.rounds.length ∧
    isInlier (st.rounds.getD (w.2 - 1) pl0) thr (cloud0.getD w.1 pt0) = true
  rounds_planes : ∀ q ∈ st.rounds, q ∈ st.planes

/-! ### Lemmas about the inlier scorer -/

theorem count_true_map (f : α → Bool) (l : List α) : (l.map f).count true = l.countP f := by
  induction l with
  | nil => rfl
  | cons a l ih =>
    simp only [List.map_cons, List.count_cons, List.countP_cons, ih]
    cases h : f a <;> simp [h]

theorem prunedScan_zero (inl : Point → Bool) :
    ∀ (l : List Point) (num : ℕ), prunedScan inl 0 l num = (num + l.countP inl, l.map inl) := by
  intro l
  induction l with
  | nil => intro num; simp [prunedScan]
  | cons pt rest ih =>
    intro num
    rw [prunedScan]
    simp only [Nat.not_lt_zero, if_false, ih, List.countP_cons, List.map_cons]
    cases h : inl pt <;> simp [h] <;> omega

theorem prunedScan_count_len (inl : Point → Bool) (best : ℕ) :
    ∀ (l : List Point) (num : ℕ),
      (prunedScan inl best l num).2.count true + num = (prunedScan inl best l num).1 ∧
      (prunedScan inl best l num).2.length = l.length := by
  intro l
  induction l with
  | nil => intro num; simp [prunedScan]
  | cons pt rest ih =>
    intro num
    rw [prunedScan]
    by_cases hbr : (if inl pt then num + 1 else num) + rest.length + 1 < best
    · simp only [hbr, if_true]
      cases h : inl pt <;>
          simp [h, List.count_cons, List.count_replicate, List.length_replicate] <;>
        omega
    · simp only [hbr, if_false]
      have := ih (if inl pt then num + 1 else num)
      cases h : inl pt <;>
        · simp only [h, if_true, if_false, List.count_cons, List.length_cons] <;>
          simp [h] at this ⊢ <;> omega

theorem prunedScan_ge (inl : Point → Bool) (best : ℕ) :
    ∀ (l : List Point) (num : ℕ), best ≤ (prunedScan inl best l num).1 →
      prunedScan inl best l num = prunedScan inl 0 l num := by
  intro l
  induction l with
  | nil => intro num _; rfl
  | cons pt rest ih =>
    intro num h
    rw [prunedScan] at h ⊢
    by_cases hbr : (if inl pt then num + 1 else num) + rest.length + 1 < best
    · simp only [hbr, if_true] at h
      omega
    · simp only [hbr, if_false] at h ⊢
      rw [prunedScan]
      simp only [Nat.not_lt_zero, if_false]
      rw [ih _ h]

theorem get_inliers_fst (m : Plane) (pts : List Point) (thr : ℚ) (best : ℕ) :
    (get_inliers m pts thr best).1 =
      (prunedScan (isInlier m thr) best (pts.drop (pts.length * 2 / 3))
        ((pts.take (pts.length * 2 / 3)).countP (isInlier m thr))).1 := rfl

theorem get_inliers_zero (m : Plane) (pts : List Point) (thr : ℚ) :
    get_inliers m pts thr 0 = (pts.countP (isInlier m thr), pts.map (isInlier m thr)) := by
  simp only [get_inliers]
  rw [prunedScan_zero, ← List.countP_append, ← List.map_append, List.take_append_drop]

theorem get_inliers_pruned_eq (m : Plane) (pts : List Point) (thr : ℚ) (best : ℕ)
    (h : best ≤ (get_inliers m pts thr best).1) :
    get_inliers m pts thr best = get_inliers m pts thr 0 := by
  rw [get_inliers_fst] at h
  simp only [get_inliers]
  rw [prunedScan_ge _ _ _ _ h]

theorem get_inliers_count (m : Plane) (pts : List Point) (thr : ℚ) (best : ℕ) :
    (get_inliers m pts thr best).2.count true = (get_inliers m pts thr best).1 := by
  simp only [get_inliers]
  have h := prunedScan_count_len (isInlier m thr) best (pts.drop (pts.length * 2 / 3))
    ((pts.take (pts.length * 2 / 3)).countP (isInlier m thr))
  simp only [List.count_append, count_true_map]
  omega

theorem get_inliers_len (m : Plane) (pts : List Point) (thr : ℚ) (best : ℕ) :
    (get_inliers m pts thr best).2.length = pts.length := by
  simp only [get_inliers]
  have h := prunedScan_count_len (isInlier m thr) best (pts.drop (pts.length * 2 / 3))
    ((pts.take (pts.length * 2 / 3)).countP (isInlier m thr))
  simp only [List.length_append, List.length_map, h.2, List.length_take, List.length_drop]
  omega

theorem selectFalse_length : ∀ (l : List α) (mask : List Bool), l.length = mask.length →
    (selectFalse l mask).length + mask.count true = l.length := by
  intro l
  induction l with
  | nil =>
    intro mask h
    cases mask with
    | nil => simp [selectFalse]
    | cons b m => simp at h
  | cons a l ih =>
    intro mask h
    cases mask with
    | nil => simp at h
    | cons b m =>
      simp only [List.length_cons] at h
      have hrec := ih m (by omega)
      cases b <;> simp [selectFalse, List.count_cons] <;> omega

/-- The Lagrange identity over ℚ, tying the collinearity test of the
estimator to the cross product of the edge vectors. -/
theorem lagrange_identity (u v : Point) :
    vdot u u * vdot v v - vdot v u * vdot v u =
      (vcross u v).x * (vcross u v).x + (vcross u v).y * (vcross u v).y +
        (vcross u v).z * (vcross u v).z := by
  simp only [vdot, vcross]
  ring

/-! ### Claim theorems for the scorer and the algebraic helpers -/

/-- Claim C4: the pruned inlier scorer agrees with exhaustive scoring (same
count, same mask) whenever its result reaches the pruning bound, and with
bound 0 it scores every point: it returns exactly the pointwise count and
the pointwise mask. -/
theorem ransac_C4 : ∀ (m : Plane) (pts : List Point) (thr : ℚ) (B : ℕ),
    get_inliers m pts thr 0 = (pts.countP (isInlier m thr), pts.map (isInlier m thr)) ∧
    (B ≤ (get_inliers m pts thr B).1 → get_inliers m pts thr B = get_inliers m pts thr 0) :=
  fun m pts thr B =>
    ⟨get_inliers_zero m pts thr, fun h => get_inliers_pruned_eq m pts thr B h⟩

/-- Witness for C4 at a concrete cloud, plane and bound. -/
theorem ransac_C4_witness :
    2 ≤ (get_inliers ⟨0, 0, 1, 0⟩ [⟨0, 0, 0⟩, ⟨1, 0, 0⟩, ⟨0, 1, 0⟩] 1 2).1 ∧
    get_inliers ⟨0, 0, 1, 0⟩ [⟨0, 0, 0⟩, ⟨1, 0, 0⟩, ⟨0, 1, 0⟩] 1 2 =
      get_inliers ⟨0, 0, 1, 0⟩ [⟨0, 0, 0⟩, ⟨1, 0, 0⟩, ⟨0, 1, 0⟩] 1 0 :=
  ⟨of_decide_eq_true (by with_unfolding_all rfl),
   (ransac_C4 ⟨0, 0, 1, 0⟩ [⟨0, 0, 0⟩, ⟨1, 0, 0⟩, ⟨0, 1, 0⟩] 1 2).2
     (of_decide_eq_true (by with_unfolding_all rfl))⟩

/-- Claim C9: for every pruning bound (early stop or not), the count
returned by the scorer equals the number of true entries of the mask it
produced, the mask covers every point, and compacting the mask-false
points yields exactly `N − count` points. -/
theorem ransac_C9 : ∀ (m : Plane) (pts : List Point) (thr : ℚ) (B : ℕ),
    (get_inliers m pts thr B).2.count true = (get_inliers m pts thr B).1 ∧
    (get_inliers m pts thr B).2.length = pts.length ∧
    (selectFalse pts (get_inliers m pts thr B).2).length =
      pts.length - (get_inliers m pts thr B).1 := by
  intro m pts thr B
  have h1 := get_inliers_count m pts thr B
  have h2 := get_inliers_len m pts thr B
  have h3 := selectFalse_length pts (get_inliers m pts thr B).2 h2.symm
  have h4 : (get_inliers m pts thr B).2.count true ≤ (get_inliers m pts thr B).2.length :=
    List.count_le_length true (get_inliers m pts thr B).2
  exact ⟨h1, h2, by omega⟩

/-- Claim C5, counterexample to scale invariance: scaling the normal
`(1,0,0)` by 2 flips the verdict of the normal-constraint check against
the target `(1,0,1)` with tolerance 1/2. -/
theorem ransac_C5_counterexample :
    check_same_normal ⟨1, 0, 0, 0⟩ ⟨1, 0, 1⟩ (1 / 2) = true ∧
    check_same_normal ⟨2, 0, 0, 0⟩ ⟨1, 0, 1⟩ (1 / 2) = false := by
  constructor
  · with_unfolding_all rfl
  · with_unfolding_all rfl

/-- Claim C5 amended: the check accepts exactly when
`(dot² − |n|²·|t|²)² ≤ thr · |n|²·|t|²`, and it accepts the anti-parallel
direction (negating the normal never changes the verdict); it is not
invariant under general nonzero scaling of the normal. -/
theorem ransac_C5_amended : ∀ (m : Plane) (t : Point) (thr : ℚ),
    (check_same_normal m t thr = true ↔
      ((m.a * t.x + m.b * t.y + m.c * t.z) * (m.a * t.x + m.b * t.y + m.c * t.z) -
          (m.a * m.a + m.b * m.b + m.c * m.c) * (t.x * t.x + t.y * t.y + t.z * t.z)) *
        ((m.a * t.x + m.b * t.y + m.c * t.z) * (m.a * t.x + m.b * t.y + m.c * t.z) -
          (m.a * m.a + m.b * m.b + m.c * m.c) * (t.x * t.x + t.y * t.y + t.z * t.z)) ≤
        thr * ((m.a * m.a + m.b * m.b + m.c * m.c) * (t.x * t.x + t.y * t.y + t.z * t.z))) ∧
    check_same_normal ⟨-m.a, -m.b, -m.c, m.d⟩ t thr = check_same_normal m t thr := by
  intro m t thr
  constructor
  · simp [check_same_normal]
  · simp only [check_same_normal]
    rw [decide_eq_decide]
    constructor <;> intro h <;> · ring_nf at h ⊢; exact h

/-- Claim C7: with the eigen-decomposition behaving as the spec states, a
3-point fit fails exactly when `|(ca·ba)² − |ba|²·|ca|²| < 1e-4`, and
exactly collinear triples (zero cross product) always fail. -/
theorem ransac_C7 : ∀ p1 p2 p3 : Point,
    (tls3 p1 p2 p3 = none ↔
      |vdot (psub p1 p3) (psub p1 p2) * vdot (psub p1 p3) (psub p1 p2) -
          vdot (psub p1 p2) (psub p1 p2) * vdot (psub p1 p3) (psub p1 p3)| < 1 / 10000) ∧
    (vcross (psub p1 p2) (psub p1 p3) = pt0 → tls3 p1 p2 p3 = none) := by
  intro p1 p2 p3
  have hred : tls3 p1 p2 p3 =
      if collin3 p1 p2 p3 then none
      else tlsCore (specEig3 p1 p2 p3) [p1, p2, p3] [0, 1, 2] := by
    simp [tls3, total_least_squares_plane_estimate, List.getD]
  have hzero : vcross (psub p1 p2) (psub p1 p3) = pt0 →
      |vdot (psub p1 p3) (psub p1 p2) * vdot (psub p1 p3) (psub p1 p2) -
        vdot (psub p1 p2) (psub p1 p2) * vdot (psub p1 p3) (psub p1 p3)| < 1 / 10000 := by
    intro h0
    have hl := lagrange_identity (psub p1 p2) (psub p1 p3)
    have hx : (vcross (psub p1 p2) (psub p1 p3)).x = 0 := by rw [h0]; rfl
    have hy : (vcross (psub p1 p2) (psub p1 p3)).y = 0 := by rw [h0]; rfl
    have hz : (vcross (psub p1 p2) (psub p1 p3)).z = 0 := by rw [h0]; rfl
    rw [hx, hy, hz] at hl
    have hD : vdot (psub p1 p3) (psub p1 p2) * vdot (psub p1 p3) (psub p1 p2) -
        vdot (psub p1 p2) (psub p1 p2) * vdot (psub p1 p3) (psub p1 p3) = 0 := by linarith
    rw [hD]
    norm_num
  by_cases hc : collin3 p1 p2 p3
  · have hineq : |vdot (psub p1 p3) (psub p1 p2) * vdot (psub p1 p3) (psub p1 p2) -
        vdot (psub p1 p2) (psub p1 p2) * vdot (psub p1 p3) (psub p1 p3)| < 1 / 10000 := by
      simpa [collin3] using hc
    refine ⟨?_, fun _ => by rw [hred, if_pos hc]⟩
    rw [hred, if_pos hc]
    simpa using hineq
  · have hni : ¬ |vdot (psub p1 p3) (psub p1 p2) * vdot (psub p1 p3) (psub p1 p2) -
        vdot (psub p1 p2) (psub p1 p2) * vdot (psub p1 p3) (psub p1 p3)| < 1 / 10000 := by
      simpa [collin3] using hc
    have hcross : vcross (psub p1 p2) (psub p1 p3) ≠ pt0 := fun h0 => hni (hzero h0)
    refine ⟨?_, fun h0 => absurd h0 hcross⟩
    rw [hred, if_neg hc]
    simp only [tlsCore, specEig3]
    rw [if_neg hcross]
    exact iff_of_false (by simp) hni

/-- Witness for C7 at an exactly collinear concrete triple. -/
theorem ransac_C7_witness :
    vcross (psub ⟨0, 0, 0⟩ ⟨1, 0, 0⟩) (psub ⟨0, 0, 0⟩ ⟨2, 0, 0⟩) = pt0 ∧
    tls3 ⟨0, 0, 0⟩ ⟨1, 0, 0⟩ ⟨2, 0, 0⟩ = none :=
  ⟨by with_unfolding_all rfl,
   (ransac_C7 ⟨0, 0, 0⟩ ⟨1, 0, 0⟩ ⟨2, 0, 0⟩).2 (by with_unfolding_all rfl)⟩

/-! ### The adaptive iteration budget of the single-plane loop -/

theorem capUpdate_le (cap : ℕ → ℕ → Option ℕ) (best n m : ℕ) : capUpdate cap best n m ≤ m := by
  unfold capUpdate
  cases cap best n with
  | none => exact le_refl m
  | some h => dsimp only; split <;> omega

theorem gpBody_eq_none (o : Oracle) (pts : List Point) (thr : ℚ)
    (nrm : Option (Point × ℚ)) (st : GPState)
    (h : total_least_squares_plane_estimate o.eig pts
      [o.draw st.t % pts.length, o.draw (st.t + 1) % pts.length,
        o.draw (st.t + 2) % pts.length] = none) :
    gpBody o pts thr nrm st = { st with t := st.t + 3 } := by
  unfold gpBody
  rw [h]

theorem gpBody_eq_some (o : Oracle) (pts : List Point) (thr : ℚ)
    (nrm : Option (Point × ℚ)) (st : GPState) (m : Plane)
    (h : total_least_squares_plane_estimate o.eig pts
      [o.draw st.t % pts.length, o.draw (st.t + 1) % pts.length,
        o.draw (st.t + 2) % pts.length] = some m) :
    gpBody o pts thr nrm st =
      if normalOk nrm m then
        if st.bestInls < (get_inliers m pts thr st.bestInls).1 then
          gpAdopt o pts thr nrm st m
        else
          { st with
            t := st.t + 3
            mask := (get_inliers m pts thr st.bestInls).2
            lastNum := (get_inliers m pts thr st.bestInls).1 }
      else { st with t := st.t + 3 } := by
  unfold gpBody
  rw [h]

theorem gpBody_inv (o : Oracle) (pts : List Point) (thr : ℚ) (nrm : Option (Point × ℚ))
    (st : GPState) :
    (gpBody o pts thr nrm st).maxIter ≤ st.maxIter ∧
    (gpBody o pts thr nrm st).trace = st.trace ∧
    (gpBody o pts thr nrm st).iter = st.iter := by
  cases h : total_least_squares_plane_estimate o.eig pts
      [o.draw st.t % pts.length, o.draw (st.t + 1) % pts.length,
        o.draw (st.t + 2) % pts.length] with
  | none =>
    rw [gpBody_eq_none o pts thr nrm st h]
    exact ⟨le_refl _, rfl, rfl⟩
  | some m =>
    rw [gpBody_eq_some o pts thr nrm st m h]
    by_cases hn : normalOk nrm m = true
    · rw [if_pos hn]
      by_cases hlt : st.bestInls < (get_inliers m pts thr st.bestInls).1
      · rw [if_pos hlt]
        exact ⟨capUpdate_le o.cap _ _ _, rfl, rfl⟩
      · rw [if_neg hlt]
        exact ⟨le_refl _, rfl, rfl⟩
    · rw [if_neg hn]
      exact ⟨le_refl _, rfl, rfl⟩

theorem chain_ge_snoc {l : List ℕ} {m0 a : ℕ}
    (h : List.Chain' (fun x y => y ≤ x) (m0 :: l))
    (ha : ∀ x ∈ (m0 :: l).getLast?, a ≤ x) :
    List.Chain' (fun x y => y ≤ x) ((m0 :: l) ++ [a]) := by
  rw [List.chain'_append]
  refine ⟨h, List.chain'_singleton a, ?_⟩
  intro x hx y hy
  simp only [List.head?_cons, Option.mem_def, Option.some.injEq] at hy
  subst hy
  exact ha x hx

theorem chain_ge_all {a : ℕ} : ∀ {l : List ℕ},
    List.Chain' (fun x y => y ≤ x) (a :: l) → ∀ x ∈ l, x ≤ a := by
  intro l
  induction l generalizing a with
  | nil => intro _ x hx; cases hx
  | cons b m ih =>
    intro h x hx
    rw [List.chain'_cons] at h
    rcases List.mem_cons.mp hx with rfl | hx2
    · exact h.1
    · exact le_trans (ih h.2 x hx2) h.1

theorem gpLoop_chain (o : Oracle) (pts : List Point) (thr : ℚ) (nrm : Option (Point × ℚ))
    (m0 : ℕ) : ∀ (fuel : ℕ) (st : GPState),
    List.Chain' (fun x y => y ≤ x) (m0 :: st.trace) →
    (∀ x ∈ (m0 :: st.trace).getLast?, st.maxIter ≤ x) →
    List.Chain' (fun x y => y ≤ x) (m0 :: (gpLoop o pts thr nrm fuel st).trace) := by
  intro fuel
  induction fuel with
  | zero => intro st h1 _; simpa [gpLoop] using h1
  | succ n ih =>
    intro st h1 h2
    rw [gpLoop]
    by_cases hit : st.iter < st.maxIter
    · simp only [hit, if_true]
      have hm := (gpBody_inv o pts thr nrm st).1
      have htr := (gpBody_inv o pts thr nrm st).2.1
      apply ih
      · show List.Chain' _
          (m0 :: ((gpBody o pts thr nrm st).trace ++ [(gpBody o pts thr nrm st).maxIter]))
        rw [htr, ← List.cons_append]
        exact chain_ge_snoc h1 (fun x hx => le_trans hm (h2 x hx))
      · intro x hx
        show (gpBody o pts thr nrm st).maxIter ≤ x
        rw [htr, ← List.cons_append, List.getLast?_concat] at hx
        simp only [Option.mem_def, Option.some.injEq] at hx
        omega
    · simp only [hit, if_false]
      exact h1

/-- Claim C6: over the whole `get_plane` loop the iteration budget is
non-increasing (the ghost trace records it after each iteration, and the
adaptive cap is applied only when finite and strictly below the current
budget), and it never exceeds the caller-supplied `max_iterations`. -/
theorem ransac_C6 : ∀ (o : Oracle) (pts : List Point) (thr : ℚ) (maxIter : ℕ)
    (nrm : Option (Point × ℚ)),
    List.Chain' (fun x y => y ≤ x) (maxIter :: (get_plane o pts thr maxIter nrm).trace) ∧
    ∀ x ∈ (get_plane o pts thr maxIter nrm).trace, x ≤ maxIter := by
  intro o pts thr maxIter nrm
  have hch : List.Chain' (fun x y => y ≤ x)
      (maxIter :: (get_plane o pts thr maxIter nrm).trace) := by
    simp only [get_plane]
    split
    · simp
    · have hc : List.Chain' (fun x y => y ≤ x) (maxIter :: (gpLoop o pts thr nrm maxIter
          ⟨0, List.range pts.length, none, 0, List.replicate pts.length false, 0,
            maxIter, 0, []⟩).trace) := by
        apply gpLoop_chain
        · simp
        · intro x hx
          simp only [List.getLast?_singleton, Option.mem_def, Option.some.injEq] at hx
          subst hx
          exact le_refl _
      split
      · split
        · exact hc
        · exact hc
      · exact hc
  exact ⟨hch, chain_ge_all hch⟩

/-- Witness for C6 at a concrete run with a nonempty budget trace. -/
theorem ransac_C6_witness :
    1 ∈ (get_plane oId cloudC3 1 1 none).trace ∧ 1 ≤ 1 :=
  ⟨of_decide_eq_true (by with_unfolding_all rfl),
   (ransac_C6 oId cloudC3 1 1 none).2 1 (of_decide_eq_true (by with_unfolding_all rfl))⟩

/-! ### Plane counts of the two phases -/

theorem insertAt_length {α : Type} : ∀ (n : ℕ) (a : α) (l : List α),
    (insertAt n a l).length = l.length + 1 := by
  intro n
  induction n with
  | zero => intro a l; rfl
  | succ n ih =>
    intro a l
    cases l with
    | nil => rfl
    | cons x xs => simp [insertAt, ih]

theorem phaseBStep_planes (o : Oracle) (thr : ℚ) (nrm : Option (Point × ℚ)) (k : ℕ)
    (cand : Plane) (isLast : Bool) (st : BState) :
    (phaseBStep o thr nrm k cand isLast st).planes.length = st.planes.length + 1 := by
  cases isLast <;> simp [phaseBStep, insertAt_length]

theorem phaseBLoop_planes (o : Oracle) (thr : ℚ) (nrm : Option (Point × ℚ)) :
    ∀ (cs : List Plane) (k : ℕ) (st : BState),
    (phaseBLoop o thr nrm cs k st).planes.length = st.planes.length + cs.length := by
  intro cs
  induction cs with
  | nil => intro k st; simp [phaseBLoop]
  | cons c cs ih =>
    intro k st
    cases cs with
    | nil => simp [phaseBLoop, phaseBStep_planes]
    | cons c2 cs2 =>
      rw [phaseBLoop, ih, phaseBStep_planes]
      simp only [List.length_cons]
      omega

theorem phaseA_len (o : Oracle) (thr : ℚ) (mi : ℕ) (nrm : Option (Point × ℚ)) :
    ∀ (d : ℕ) (pts : List Point), (phaseA o thr mi nrm d pts).length ≤ d := by
  intro d
  induction d with
  | zero => intro pts; simp [phaseA]
  | succ n ih =>
    intro pts
    rw [phaseA]
    split
    · simp
    · split
      · simp
      · split
        · simp
        · simp only [List.length_cons]
          have := ih (selectFalse pts (get_plane o pts thr mi nrm).mask)
          omega

/-- Claim C8: a working set with fewer than 3 points makes `get_plane`
return 0 inliers and no model; a round returning 0 inliers makes Phase A
return no further planes (no exception path exists, the embedding is
total); and the pipeline never returns more planes than
`desired_num_planes`. -/
theorem ransac_C8 :
    (∀ (o : Oracle) (pts : List Point) (thr : ℚ) (mi : ℕ) (nrm : Option (Point × ℚ)),
      pts.length < 3 →
        get_plane o pts thr mi nrm = ⟨0, none, List.replicate pts.length false, []⟩) ∧
    (∀ (o : Oracle) (pts : List Point) (thr : ℚ) (mi : ℕ) (nrm : Option (Point × ℚ)),
      (get_plane o pts thr mi nrm).inls = 0 → ∀ d, phaseA o thr mi nrm d pts = []) ∧
    (∀ (o : Oracle) (cloud : List Point) (thr : ℚ) (mi des : ℕ) (grid : ℚ)
      (nrm : Option (Point × ℚ)),
      (get_planes o cloud thr mi des grid nrm).planes.length ≤ des) := by
  refine ⟨?_, ?_, ?_⟩
  · intro o pts thr mi nrm h
    simp only [get_plane]
    rw [if_pos h]
  · intro o pts thr mi nrm h d
    cases d with
    | zero => rfl
    | succ n =>
      rw [phaseA]
      simp [h]
  · intro o cloud thr mi des grid nrm
    simp only [get_planes]
    rw [phaseBLoop_planes]
    simpa using phaseA_len o thr mi nrm des _

/-! ### Concrete counterexample runs -/

/-- Claim C1 counterexample: in the concrete 8-point run the original point
`(0,0,0)` carries label 1, but the rank-1 entry of the returned plane list
is the plane `z = 10`, and the point is not an inlier of it (its
normalized distance is 10, far above thr = 1): labels follow Phase-B
discovery order, not the rank position in the returned list. -/
theorem ransac_C1_counterexample :
    runC1.labels.getD 0 0 = 1 ∧
    isInlier (runC1.planes.getD 0 pl0) 1 (cloudC1.getD 0 pt0) = false := by
  constructor
  · with_unfolding_all rfl
  · with_unfolding_all rfl

/-- Claim C2 counterexample: in the concrete 21-point run, a Phase-B refit
passes 21 sample indices to the plane estimator, exceeding the claimed
bound of 20 (the source uses `max_lo_inliers = 300` in Phase B,
ransac.cpp:147). -/
theorem ransac_C2_counterexample : 21 ∈ runC2.scnts ∧ 20 < 21 :=
  ⟨of_decide_eq_true (by with_unfolding_all rfl), by norm_num⟩

/-- Claim C3 counterexample: in the concrete 6-point run both Phase-B
rounds score 3 inliers, and the round-2 plane (`z = 10`) ends up *before*
the equal-count round-1 plane (`z = 0`) in the returned list: a
later-discovered equal-count plane is inserted before, not after, the
existing equal-count entry. -/
theorem ransac_C3_counterexample :
    runC3.nums = [3, 3, 0] ∧
    runC3.rounds = [⟨0, 0, 1, 0⟩, ⟨0, 0, 1, -10⟩] ∧
    runC3.planes = [⟨0, 0, 1, -10⟩, ⟨0, 0, 1, 0⟩] := by
  refine ⟨?_, ?_, ?_⟩
  · with_unfolding_all rfl
  · with_unfolding_all rfl
  · with_unfolding_all rfl

/-! ### Projections of one Phase-B round -/

theorem phaseBStep_nums (o : Oracle) (thr : ℚ) (nrm : Option (Point × ℚ)) (k : ℕ)
    (cand : Plane) (isLast : Bool) (st : BState) :
    (phaseBStep o thr nrm k cand isLast st).nums =
      insertAt (rankedPos (roundMask o thr nrm st cand).1 st.nums)
        (roundMask o thr nrm st cand).1 st.nums := by
  cases isLast <;> rfl

theorem phaseBStep_planes_eq (o : Oracle) (thr : ℚ) (nrm : Option (Point × ℚ)) (k : ℕ)
    (cand : Plane) (isLast : Bool) (st : BState) :
    (phaseBStep o thr nrm k cand isLast st).planes =
      insertAt (rankedPos (roundMask o thr nrm st cand).1 st.nums)
        (bRefine o thr nrm st cand).best st.planes := by
  cases isLast <;> rfl

theorem phaseBStep_rounds (o : Oracle) (thr : ℚ) (nrm : Option (Point × ℚ)) (k : ℕ)
    (cand : Plane) (isLast : Bool) (st : BState) :
    (phaseBStep o thr nrm k cand isLast st).rounds =
      st.rounds ++ [(bRefine o thr nrm st cand).best] := by
  cases isLast <;> rfl

theorem phaseBStep_labels (o : Oracle) (thr : ℚ) (nrm : Option (Point × ℚ)) (k : ℕ)
    (cand : Plane) (isLast : Bool) (st : BState) :
    (phaseBStep o thr nrm k cand isLast st).labels =
      writeLabels st.labels (wsOf o thr nrm k st cand) := by
  cases isLast <;> rfl

theorem phaseBStep_writes (o : Oracle) (thr : ℚ) (nrm : Option (Point × ℚ)) (k : ℕ)
    (cand : Plane) (isLast : Bool) (st : BState) :
    (phaseBStep o thr nrm k cand isLast st).writes =
      st.writes ++ wsOf o thr nrm k st cand := by
  cases isLast <;> rfl

theorem phaseBStep_scnts (o : Oracle) (thr : ℚ) (nrm : Option (Point × ℚ)) (k : ℕ)
    (cand : Plane) (isLast : Bool) (st : BState) :
    (phaseBStep o thr nrm k cand isLast st).scnts =
      st.scnts ++ (bRefine o thr nrm st cand).scnts := by
  cases isLast <;> rfl

theorem phaseBStep_pts_false (o : Oracle) (thr : ℚ) (nrm : Option (Point × ℚ)) (k : ℕ)
    (cand : Plane) (st : BState) :
    (phaseBStep o thr nrm k cand false st).pts =
      selectFalse st.pts (roundMask o thr nrm st cand).2 := rfl

theorem phaseBStep_orig_false (o : Oracle) (thr : ℚ) (nrm : Option (Point × ℚ)) (k : ℕ)
    (cand : Plane) (st : BState) :
    (phaseBStep o thr nrm k cand false st).orig =
      selectFalse st.orig (roundMask o thr nrm st cand).2 := rfl

/-! ### The local-optimization loop: sample bounds and state invariants -/

theorem sampleCollect_le (mask : List Bool) (pool : List ℕ) (cap : ℕ) :
    (sampleCollect mask pool cap).length ≤ cap := by
  simp only [sampleCollect, List.length_take]
  omega

theorem loBody_scnts (o : Oracle) (pts : List Point) (thr : ℚ) (nrm : Option (Point × ℚ))
    (cap : ℕ) (st : LOState) :
    (loBody o pts thr nrm cap st).1.scnts = st.scnts ++ [(loSample o cap st).length] := by
  cases h : total_least_squares_plane_estimate o.eig pts (loSample o cap st) with
  | none => unfold loBody; rw [h]; rfl
  | some lo =>
    unfold loBody
    rw [h]
    dsimp only
    by_cases hn : normalOk nrm lo = true
    · rw [if_pos hn]
      by_cases hlt : st.bestInls < (get_inliers lo pts thr st.bestInls).1
      · rw [if_pos hlt]
        rfl
      · rw [if_neg hlt]
        by_cases heq : st.bestInls = (get_inliers lo pts thr st.bestInls).1
        · rw [if_pos heq]
          rfl
        · rw [if_neg heq]
          rfl
    · rw [if_neg hn]
      rfl

theorem loBody_lastNum (o : Oracle) (pts : List Point) (thr : ℚ) (nrm : Option (Point × ℚ))
    (cap : ℕ) (st : LOState) (h : st.lastNum ≤ st.bestInls) :
    (loBody o pts thr nrm cap st).1.lastNum ≤ (loBody o pts thr nrm cap st).1.bestInls := by
  cases hh : total_least_squares_plane_estimate o.eig pts (loSample o cap st) with
  | none => unfold loBody; rw [hh]; exact h
  | some lo =>
    unfold loBody
    rw [hh]
    dsimp only
    by_cases hn : normalOk nrm lo = true
    · rw [if_pos hn]
      by_cases hlt : st.bestInls < (get_inliers lo pts thr st.bestInls).1
      · rw [if_pos hlt]
      · rw [if_neg hlt]
        by_cases heq : st.bestInls = (get_inliers lo pts thr st.bestInls).1
        · rw [if_pos heq]
          show (get_inliers lo pts thr st.bestInls).1 ≤ st.bestInls
          omega
        · rw [if_neg heq]
          show (get_inliers lo pts thr st.bestInls).1 ≤ st.bestInls
          omega
    · rw [if_neg hn]; exact h

theorem loLoop_lastNum (o : Oracle) (pts : List Point) (thr : ℚ) (nrm : Option (Point × ℚ))
    (cap : ℕ) : ∀ (fuel : ℕ) (st : LOState), st.lastNum ≤ st.bestInls →
    (loLoop o pts thr nrm cap fuel st).lastNum ≤
      (loLoop o pts thr nrm cap fuel st).bestInls := by
  intro fuel
  induction fuel with
  | zero => intro st h; exact h
  | succ n ih =>
    intro st h
    rw [loLoop]
    by_cases hbr : (loBody o pts thr nrm cap st).2 = true
    · rw [if_pos hbr]
      exact loBody_lastNum o pts thr nrm cap st h
    · rw [if_neg hbr]
      exact ih _ (loBody_lastNum o pts thr nrm cap st h)

theorem loLoop_scnts_mem (o : Oracle) (pts : List Point) (thr : ℚ)
    (nrm : Option (Point × ℚ)) (cap : ℕ) : ∀ (fuel : ℕ) (st : LOState),
    (∀ n ∈ st.scnts, n ≤ cap) →
    ∀ n ∈ (loLoop o pts thr nrm cap fuel st).scnts, n ≤ cap := by
  intro fuel
  induction fuel with
  | zero => intro st h; exact h
  | succ k ih =>
    intro st h
    have hbody : ∀ n ∈ (loBody o pts thr nrm cap st).1.scnts, n ≤ cap := by
      rw [loBody_scnts]
      intro n hn
      rcases List.mem_append.mp hn with hl | hr
      · exact h n hl
      · simp only [List.mem_singleton] at hr
        subst hr
        exact le_trans (le_of_eq rfl) (sampleCollect_le _ _ _)
    rw [loLoop]
    by_cases hbr : (loBody o pts thr nrm cap st).2 = true
    · rw [if_pos hbr]; exact hbody
    · rw [if_neg hbr]; exact ih _ hbody

theorem loLoop_scnts_len (o : Oracle) (pts : List Point) (thr : ℚ)
    (nrm : Option (Point × ℚ)) (cap : ℕ) : ∀ (fuel : ℕ) (st : LOState),
    (loLoop o pts thr nrm cap fuel st).scnts.length ≤ st.scnts.length + fuel := by
  intro fuel
  induction fuel with
  | zero => intro st; exact Nat.le_refl _
  | succ k ih =>
    intro st
    have hbody : (loBody o pts thr nrm cap st).1.scnts.length = st.scnts.length + 1 := by
      rw [loBody_scnts]
      simp
    rw [loLoop]
    by_cases hbr : (loBody o pts thr nrm cap st).2 = true
    · rw [if_pos hbr]; omega
    · rw [if_neg hbr]
      have := ih (loBody o pts thr nrm cap st).1
      omega

theorem bRefine_lastNum (o : Oracle) (thr : ℚ) (nrm : Option (Point × ℚ)) (st : BState)
    (cand : Plane) :
    (bRefine o thr nrm st cand).lastNum ≤ (bRefine o thr nrm st cand).bestInls := by
  unfold bRefine
  exact loLoop_lastNum o st.pts thr nrm 300 3 _ (Nat.zero_le _)

theorem bRefine_scnts_mem (o : Oracle) (thr : ℚ) (nrm : Option (Point × ℚ)) (st : BState)
    (cand : Plane) : ∀ n ∈ (bRefine o thr nrm st cand).scnts, n ≤ 300 := by
  unfold bRefine
  apply loLoop_scnts_mem
  intro n hn
  cases hn

theorem bRefine_scnts_len (o : Oracle) (thr : ℚ) (nrm : Option (Point × ℚ)) (st : BState)
    (cand : Plane) : (bRefine o thr nrm st cand).scnts.length ≤ 3 := by
  unfold bRefine
  exact loLoop_scnts_len o st.pts thr nrm 300 3 _

/-- The `if (best_inls >= lo_inls)` of ransac.cpp:209 is always taken: the
last scored count never exceeds the current best, so every Phase-B round
labels and compacts with a freshly recomputed exhaustive count and mask of
its best model. -/
theorem roundMask_eq (o : Oracle) (thr : ℚ) (nrm : Option (Point × ℚ)) (st : BState)
    (cand : Plane) :
    roundMask o thr nrm st cand =
      get_inliers (bRefine o thr nrm st cand).best st.pts thr 0 := by
  unfold roundMask
  rw [if_pos (bRefine_lastNum o thr nrm st cand)]

theorem phaseBLoop_scnts (o : Oracle) (thr : ℚ) (nrm : Option (Point × ℚ)) :
    ∀ (cs : List Plane) (k : ℕ) (st : BState),
    (∀ n ∈ st.scnts, n ≤ 300) → st.scnts.length ≤ 3 * st.planes.length →
    (∀ n ∈ (phaseBLoop o thr nrm cs k st).scnts, n ≤ 300) ∧
    (phaseBLoop o thr nrm cs k st).scnts.length ≤
      3 * (phaseBLoop o thr nrm cs k st).planes.length := by
  intro cs
  induction cs with
  | nil => intro k st h1 h2; exact ⟨h1, h2⟩
  | cons c cs ih =>
    intro k st h1 h2
    have hstep : ∀ isLast : Bool,
        (∀ n ∈ (phaseBStep o thr nrm k c isLast st).scnts, n ≤ 300) ∧
        (phaseBStep o thr nrm k c isLast st).scnts.length ≤
          3 * (phaseBStep o thr nrm k c isLast st).planes.length := by
      intro isLast
      constructor
      · rw [phaseBStep_scnts]
        intro n hn
        rcases List.mem_append.mp hn with hl | hr
        · exact h1 n hl
        · exact bRefine_scnts_mem o thr nrm st c n hr
      · rw [phaseBStep_scnts, phaseBStep_planes, List.length_append]
        have := bRefine_scnts_len o thr nrm st c
        omega
    cases cs with
    | nil => exact hstep true
    | cons c2 cs2 =>
      rw [phaseBLoop]
      exact ih (k + 1) _ (hstep false).1 (hstep false).2

/-- Claim C2 amended: every Phase-B refit passes at most 300 (not 20)
sample indices to the plane estimator, and each candidate is refined by
at most 3 local-optimization rounds (at most 3 estimator calls per
returned plane). -/
theorem ransac_C2_amended : ∀ (o : Oracle) (cloud : List Point) (thr : ℚ) (mi des : ℕ)
    (grid : ℚ) (nrm : Option (Point × ℚ)),
    (∀ n ∈ (get_planes o cloud thr mi des grid nrm).scnts, n ≤ 300) ∧
    (get_planes o cloud thr mi des grid nrm).scnts.length ≤
      3 * (get_planes o cloud thr mi des grid nrm).planes.length := by
  intro o cloud thr mi des grid nrm
  simp only [get_planes]
  apply phaseBLoop_scnts
  · intro n hn
    cases hn
  · simp

/-- Witness for the amended C2: the 21-sample refit of the concrete run is
within the amended bound. -/
theorem ransac_C2_amended_witness : 21 ∈ runC2.scnts ∧ 21 ≤ 300 :=
  ⟨of_decide_eq_true (by with_unfolding_all rfl),
   (ransac_C2_amended oId cloudC2 1 1 1 0 none).1 21
     (of_decide_eq_true (by with_unfolding_all rfl))⟩

/-! ### The ranked insertion -/

theorem rankedPos_prefix_gt (best : ℕ) : ∀ (l : List ℕ) (j : ℕ),
    j < rankedPos best l → best < l.getD j 0 := by
  intro l
  induction l with
  | nil => intro j h; simp [rankedPos] at h
  | cons n ns ih =>
    intro j h
    rw [rankedPos] at h
    by_cases hb : best < n
    · rw [if_pos hb] at h
      cases j with
      | zero => simpa using hb
      | succ j => exact ih j (by omega)
    · rw [if_neg hb] at h
      omega

theorem chain_ge_insertAt (best : ℕ) : ∀ l : List ℕ,
    List.Chain' (fun x y => y ≤ x) l →
    List.Chain' (fun x y => y ≤ x) (insertAt (rankedPos best l) best l) := by
  intro l
  induction l with
  | nil => intro _; simp [rankedPos, insertAt]
  | cons n ns ih =>
    intro h
    rw [rankedPos]
    by_cases hb : best < n
    · rw [if_pos hb]
      show List.Chain' _ (n :: insertAt (rankedPos best ns) best ns)
      rw [List.chain'_cons']
      constructor
      · intro y hy
        cases ns with
        | nil =>
          simp only [rankedPos, insertAt, List.head?_cons, Option.mem_def,
            Option.some.injEq] at hy
          omega
        | cons m ms =>
          rw [rankedPos] at hy
          by_cases hb2 : best < m
          · rw [if_pos hb2] at hy
            simp only [insertAt, List.head?_cons, Option.mem_def, Option.some.injEq] at hy
            rw [List.chain'_cons] at h
            omega
          · rw [if_neg hb2] at hy
            simp only [insertAt, List.head?_cons, Option.mem_def, Option.some.injEq] at hy
            omega
      · exact ih (List.Chain'.tail h)
    · rw [if_neg hb]
      show List.Chain' _ (best :: n :: ns)
      rw [List.chain'_cons]
      exact ⟨by omega, h⟩

theorem phaseBStep_nums_chain (o : Oracle) (thr : ℚ) (nrm : Option (Point × ℚ)) (k : ℕ)
    (cand : Plane) (isLast : Bool) (st : BState)
    (h : List.Chain' (fun x y => y ≤ x) st.nums) :
    List.Chain' (fun x y => y ≤ x) (phaseBStep o thr nrm k cand isLast st).nums := by
  rw [phaseBStep_nums]
  exact chain_ge_insertAt _ st.nums h

theorem phaseBLoop_nums_chain (o : Oracle) (thr : ℚ) (nrm : Option (Point × ℚ)) :
    ∀ (cs : List Plane) (k : ℕ) (st : BState),
    List.Chain' (fun x y => y ≤ x) st.nums →
    List.Chain' (fun x y => y ≤ x) (phaseBLoop o thr nrm cs k st).nums := by
  intro cs
  induction cs with
  | nil => intro k st h; exact h
  | cons c cs ih =>
    intro k st h
    cases cs with
    | nil => exact phaseBStep_nums_chain o thr nrm k c true st h
    | cons c2 cs2 =>
      rw [phaseBLoop]
      exact ih (k + 1) _ (phaseBStep_nums_chain o thr nrm k c false st h)

/-- Claim C3 amended: the ranked count list (0 sentinel included) stays
sorted in non-increasing order through the whole pipeline, but ties are
resolved the other way round than claimed: every entry strictly before
the insertion position is strictly greater than the inserted count, so a
newly inserted plane is placed before every existing equal-count entry
(equal-count planes end up in reverse discovery order). -/
theorem ransac_C3_amended :
    (∀ (o : Oracle) (cloud : List Point) (thr : ℚ) (mi des : ℕ) (grid : ℚ)
      (nrm : Option (Point × ℚ)),
      List.Chain' (fun x y => y ≤ x) (get_planes o cloud thr mi des grid nrm).nums) ∧
    (∀ (best : ℕ) (l : List ℕ) (j : ℕ), j < rankedPos best l → best < l.getD j 0) := by
  constructor
  · intro o cloud thr mi des grid nrm
    simp only [get_planes]
    apply phaseBLoop_nums_chain
    simp
  · exact rankedPos_prefix_gt

/-- Witness for the amended C3 at a concrete ranked list. -/
theorem ransac_C3_amended_witness :
    0 < rankedPos 5 [7, 3, 0] ∧ 5 < [7, 3, 0].getD 0 0 :=
  ⟨of_decide_eq_true (by with_unfolding_all rfl),
   ransac_C3_amended.2 5 [7, 3, 0] 0 (of_decide_eq_true (by with_unfolding_all rfl))⟩

/-! ### Compaction, label writes and the Phase-B labeling invariant -/

theorem selectTrue_sublist {α : Type} : ∀ (l : List α) (m : List Bool),
    (selectTrue l m).Sublist l := by
  intro l
  induction l with
  | nil => intro m; cases m <;> exact List.Sublist.refl _
  | cons a l ih =>
    intro m
    cases m with
    | nil => exact List.nil_sublist _
    | cons b mm =>
      cases b
      · simpa [selectTrue] using (ih mm).cons a
      · simpa [selectTrue] using (ih mm).cons₂ a

theorem selectFalse_sublist {α : Type} : ∀ (l : List α) (m : List Bool),
    (selectFalse l m).Sublist l := by
  intro l
  induction l with
  | nil => intro m; cases m <;> exact List.Sublist.refl _
  | cons a l ih =>
    intro m
    cases m with
    | nil => exact List.nil_sublist _
    | cons b mm =>
      cases b
      · simpa [selectFalse] using (ih mm).cons₂ a
      · simpa [selectFalse] using (ih mm).cons a

theorem selectTrue_not_selectFalse {α : Type} : ∀ (l : List α) (m : List Bool),
    l.Nodup → ∀ x ∈ selectTrue l m, x ∉ selectFalse l m := by
  intro l
  induction l with
  | nil => intro m _ x hx; cases m <;> cases hx
  | cons a l ih =>
    intro m hnd x hx
    cases m with
    | nil => cases hx
    | cons b mm =>
      rw [List.nodup_cons] at hnd
      cases b
      · simp only [selectTrue, selectFalse, Bool.false_eq_true, if_false] at hx ⊢
        intro hmem
        rcases List.mem_cons.mp hmem with rfl | hmem2
        · exact hnd.1 ((selectTrue_sublist l mm).subset hx)
        · exact ih mm hnd.2 x hx hmem2
      · simp only [selectTrue, selectFalse, if_true] at hx ⊢
        rcases List.mem_cons.mp hx with rfl | hx2
        · exact fun hmem => hnd.1 ((selectFalse_sublist l mm).subset hmem)
        · exact ih mm hnd.2 x hx2

theorem forall2_selectFalse {α β : Type} {R : α → β → Prop} :
    ∀ {l : List α} {l2 : List β}, List.Forall₂ R l l2 → ∀ m : List Bool,
    List.Forall₂ R (selectFalse l m) (selectFalse l2 m) := by
  intro l l2 h
  induction h with
  | nil => intro m; exact List.Forall₂.nil
  | @cons p i0 ps is hpi htl ih =>
    intro m
    cases m with
    | nil => exact List.Forall₂.nil
    | cons b mm =>
      cases b
      · exact List.Forall₂.cons hpi (ih mm)
      · exact ih mm

theorem mem_selectTrue_map (cloud0 : List Point) (inl : Point → Bool) :
    ∀ {pts : List Point} {orig : List ℕ},
    List.Forall₂ (fun p i => p = cloud0.getD i pt0) pts orig →
    ∀ i ∈ selectTrue orig (pts.map inl), inl (cloud0.getD i pt0) = true := by
  intro pts orig h
  induction h with
  | nil => intro i hi; cases hi
  | @cons p i0 ps is hpi htl ih =>
    intro i hi
    rw [List.map_cons] at hi
    cases hb : inl p
    · rw [hb] at hi
      simp only [selectTrue, Bool.false_eq_true, if_false] at hi
      exact ih i hi
    · rw [hb] at hi
      simp only [selectTrue, if_true] at hi
      rcases List.mem_cons.mp hi with rfl | hi2
      · rw [← hpi]
        exact hb
      · exact ih i hi2

theorem forall2_getD_range (l : List Point) :
    List.Forall₂ (fun p i => p = l.getD i pt0) l (List.range l.length) := by
  rw [List.forall₂_iff_get]
  refine ⟨by simp, ?_⟩
  intro i h1 h2
  rw [List.get_range]
  exact (List.getD_eq_get l pt0 h1).symm

theorem getD_set_ne (ls : List ℕ) (j i v : ℕ) (h : j ≠ i) :
    (ls.set j v).getD i 0 = ls.getD i 0 := by
  rw [List.getD_eq_getD_get?, List.getD_eq_getD_get?, List.get?_set_ne v ls h]

theorem getD_set_self (ls : List ℕ) (i v : ℕ) (h : i < ls.length) :
    (ls.set i v).getD i 0 = v := by
  rw [List.getD_eq_getD_get?, List.get?_set_eq_of_lt v h]
  rfl

theorem getD_replicate_zero : ∀ (n i : ℕ), (List.replicate n (0 : ℕ)).getD i 0 = 0 := by
  intro n
  induction n with
  | zero => intro i; rfl
  | succ m ih =>
    intro i
    cases i with
    | zero => rfl
    | succ j => exact ih j

theorem writeLabels_length : ∀ (ws : List (ℕ × ℕ)) (ls : List ℕ),
    (writeLabels ls ws).length = ls.length := by
  intro ws
  induction ws with
  | nil => intro ls; rfl
  | cons w ws ih =>
    intro ls
    show (writeLabels (ls.set w.1 w.2) ws).length = ls.length
    rw [ih, List.length_set]

theorem writeLabels_not_mem : ∀ (ws : List (ℕ × ℕ)) (ls : List ℕ) (i : ℕ),
    (∀ w ∈ ws, w.1 ≠ i) → (writeLabels ls ws).getD i 0 = ls.getD i 0 := by
  intro ws
  induction ws with
  | nil => intro ls i _; rfl
  | cons w ws ih =>
    intro ls i h
    show (writeLabels (ls.set w.1 w.2) ws).getD i 0 = ls.getD i 0
    rw [ih _ _ (fun w2 hw2 => h w2 (List.mem_cons_of_mem w hw2)),
      getD_set_ne _ _ _ _ (h w (List.mem_cons_self w ws))]

theorem writeLabels_mem : ∀ (ws : List (ℕ × ℕ)) (ls : List ℕ) (i k : ℕ),
    (ws.map Prod.fst).Nodup → (i, k) ∈ ws → i < ls.length →
    (writeLabels ls ws).getD i 0 = k := by
  intro ws
  induction ws with
  | nil => intro ls i k _ h _; cases h
  | cons w ws ih =>
    intro ls i k hnd hmem hlen
    rw [List.map_cons, List.nodup_cons] at hnd
    rcases List.mem_cons.mp hmem with heq | hmem2
    · have hw1 : w.1 = i := by rw [← heq]
      have hw2 : w.2 = k := by rw [← heq]
      show (writeLabels (ls.set w.1 w.2) ws).getD i 0 = k
      rw [writeLabels_not_mem ws _ i ?hne, hw1, hw2, getD_set_self _ _ _ ?hlt]
      case hne =>
        intro w2 hw2mem heq2
        apply hnd.1
        rw [hw1, ← heq2]
        exact List.mem_map_of_mem Prod.fst hw2mem
      case hlt => exact hlen
    · show (writeLabels (ls.set w.1 w.2) ws).getD i 0 = k
      exact ih _ i k hnd.2 hmem2 (by rw [List.length_set]; exact hlen)

theorem mem_insertAt_self {α : Type} : ∀ (n : ℕ) (a : α) (l : List α), a ∈ insertAt n a l := by
  intro n
  induction n with
  | zero => intro a l; exact List.mem_cons_self a l
  | succ n ih =>
    intro a l
    cases l with
    | nil => exact List.mem_singleton.mpr rfl
    | cons x xs => exact List.mem_cons_of_mem x (ih a xs)

theorem mem_insertAt_of_mem {α : Type} : ∀ (n : ℕ) (a x : α) (l : List α),
    x ∈ l → x ∈ insertAt n a l := by
  intro n
  induction n with
  | zero => intro a x l h; exact List.mem_cons_of_mem a h
  | succ n ih =>
    intro a x l h
    cases l with
    | nil => cases h
    | cons y ys =>
      rcases List.mem_cons.mp h with rfl | h2
      · exact List.mem_cons_self x _
      · exact List.mem_cons_of_mem y (ih a x ys h2)

theorem wsOf_map_fst (o : Oracle) (thr : ℚ) (nrm : Option (Point × ℚ)) (k : ℕ)
    (st : BState) (cand : Plane) :
    (wsOf o thr nrm k st cand).map Prod.fst =
      selectTrue st.orig (roundMask o thr nrm st cand).2 := by
  unfold wsOf
  rw [List.map_map]
  exact List.map_id _

theorem wsOf_mem (o : Oracle) (thr : ℚ) (nrm : Option (Point × ℚ)) (k : ℕ)
    (st : BState) (cand : Plane) : ∀ w ∈ wsOf o thr nrm k st cand,
    w.2 = k ∧ w.1 ∈ selectTrue st.orig (roundMask o thr nrm st cand).2 := by
  intro w hw
  unfold wsOf at hw
  rcases List.mem_map.mp hw with ⟨i, hi, rfl⟩
  exact ⟨rfl, hi⟩

theorem phaseBStep_final (o : Oracle) (thr : ℚ) (nrm : Option (Point × ℚ))
    (cloud0 : List Point) (k : ℕ) (st : BState) (cand : Plane) (isLast : Bool)
    (inv : BInv cloud0 thr k st) :
    BFinal cloud0 thr (phaseBStep o thr nrm k cand isLast st) ∧
    (phaseBStep o thr nrm k cand isLast st).labels.length = cloud0.length := by
  have hmask : (roundMask o thr nrm st cand).2 =
      st.pts.map (isInlier (bRefine o thr nrm st cand).best thr) := by
    rw [roundMask_eq, get_inliers_zero]
  have hws_fst := wsOf_map_fst o thr nrm k st cand
  have hws_nodup : ((wsOf o thr nrm k st cand).map Prod.fst).Nodup := by
    rw [hws_fst]
    exact List.Nodup.sublist (selectTrue_sublist _ _) inv.orig_nodup
  have hws_orig : ∀ w ∈ wsOf o thr nrm k st cand, w.1 ∈ st.orig := by
    intro w hw
    exact (selectTrue_sublist _ _).subset ((wsOf_mem o thr nrm k st cand w hw).2)
  have hws_k : ∀ w ∈ wsOf o thr nrm k st cand, w.2 = k :=
    fun w hw => (wsOf_mem o thr nrm k st cand w hw).1
  have hws_inl : ∀ w ∈ wsOf o thr nrm k st cand,
      isInlier (bRefine o thr nrm st cand).best thr (cloud0.getD w.1 pt0) = true := by
    intro w hw
    have hmem := (wsOf_mem o thr nrm k st cand w hw).2
    rw [hmask] at hmem
    exact mem_selectTrue_map cloud0 _ inv.pts_orig w.1 hmem
  have hws_getD : ∀ w ∈ wsOf o thr nrm k st cand,
      (writeLabels st.labels (wsOf o thr nrm k st cand)).getD w.1 0 = w.2 := by
    intro w hw
    have h1 : (w.1, w.2) ∈ wsOf o thr nrm k st cand := hw
    rw [hws_k w hw] at h1 ⊢
    exact writeLabels_mem _ _ _ _ hws_nodup h1 (inv.orig_lt w.1 (hws_orig w hw))
  have hold_not_ws : ∀ w2 ∈ st.writes, ∀ w ∈ wsOf o thr nrm k st cand, w.1 ≠ w2.1 := by
    intro w2 hw2 w hw heq
    exact inv.writes_not_orig w2 hw2 (heq ▸ hws_orig w hw)
  have hold_getD : ∀ w2 ∈ st.writes,
      (writeLabels st.labels (wsOf o thr nrm k st cand)).getD w2.1 0 =
        st.labels.getD w2.1 0 := by
    intro w2 hw2
    exact writeLabels_not_mem _ _ _ (fun w hw => hold_not_ws w2 hw2 w hw)
  refine ⟨⟨?_, ?_, ?_, ?_, ?_⟩, ?_⟩
  · -- writes_nodup
    rw [phaseBStep_writes, List.map_append]
    rw [List.nodup_append]
    refine ⟨inv.writes_nodup, hws_nodup, ?_⟩
    intro x hx hy
    rcases List.mem_map.mp hx with ⟨w2, hw2, rfl⟩
    rcases List.mem_map.mp hy with ⟨w, hw, heq⟩
    exact hold_not_ws w2 hw2 w hw heq
  · -- labels_writes
    intro i hne
    rw [phaseBStep_labels] at hne ⊢
    rw [phaseBStep_writes]
    by_cases hi : i ∈ (wsOf o thr nrm k st cand).map Prod.fst
    · rcases List.mem_map.mp hi with ⟨w, hw, rfl⟩
      rw [hws_getD w hw]
      apply List.mem_append_right
      have : (w.1, w.2) = w := rfl
      rw [this]
      exact hw
    · have hsame : (writeLabels st.labels (wsOf o thr nrm k st cand)).getD i 0 =
          st.labels.getD i 0 := by
        apply writeLabels_not_mem
        intro w hw heq
        exact hi (heq ▸ List.mem_map_of_mem Prod.fst hw)
      rw [hsame] at hne ⊢
      exact List.mem_append_left _ (inv.labels_writes i hne)
  · -- writes_label
    intro w hw
    rw [phaseBStep_writes] at hw
    rw [phaseBStep_labels]
    rcases List.mem_append.mp hw with hold | hnew
    · rw [hold_getD w hold]
      exact inv.writes_label w hold
    · exact hws_getD w hnew
  · -- writes_round
    intro w hw
    rw [phaseBStep_writes] at hw
    rw [phaseBStep_rounds]
    rcases List.mem_append.mp hw with hold | hnew
    · obtain ⟨h1, h2, h3⟩ := inv.writes_round w hold
      refine ⟨h1, by simp only [List.length_append, List.length_cons]; omega, ?_⟩
      rw [List.getD_append _ _ _ _ (by omega)]
      exact h3
    · have hk := hws_k w hnew
      have hkval := inv.k_eq
      refine ⟨by omega, by simp only [List.length_append, List.length_cons]; omega, ?_⟩
      have hidx : w.2 - 1 = st.rounds.length := by omega
      rw [hidx, List.getD_append_right _ _ _ _ (le_refl _), Nat.sub_self]
      exact hws_inl w hnew
  · -- rounds_planes
    intro q hq
    rw [phaseBStep_rounds] at hq
    rw [phaseBStep_planes_eq]
    rcases List.mem_append.mp hq with hold | hnew
    · exact mem_insertAt_of_mem _ _ _ _ (inv.rounds_planes q hold)
    · rw [List.mem_singleton.mp hnew]
      exact mem_insertAt_self _ _ _
  · -- labels length
    rw [phaseBStep_labels, writeLabels_length]
    exact inv.labels_len

theorem phaseBStep_inv (o : Oracle) (thr : ℚ) (nrm : Option (Point × ℚ))
    (cloud0 : List Point) (k : ℕ) (st : BState) (cand : Plane)
    (inv : BInv cloud0 thr k st) :
    BInv cloud0 thr (k + 1) (phaseBStep o thr nrm k cand false st) := by
  obtain ⟨hfin, hlen⟩ := phaseBStep_final o thr nrm cloud0 k st cand false inv
  have hmask : (roundMask o thr nrm st cand).2 =
      st.pts.map (isInlier (bRefine o thr nrm st cand).best thr) := by
    rw [roundMask_eq, get_inliers_zero]
  have hsubF : ∀ i ∈ (phaseBStep o thr nrm k cand false st).orig, i ∈ st.orig := by
    intro i hi
    rw [phaseBStep_orig_false] at hi
    exact (selectFalse_sublist _ _).subset hi
  have hnotT : ∀ i ∈ (phaseBStep o thr nrm k cand false st).orig,
      i ∉ selectTrue st.orig (roundMask o thr nrm st cand).2 := by
    intro i hi hT
    rw [phaseBStep_orig_false] at hi
    exact selectTrue_not_selectFalse _ _ inv.orig_nodup i hT hi
  refine ⟨?_, ?_, ?_, ?_, ?_, hfin.writes_nodup, hfin.labels_writes, hfin.writes_label,
    ?_, hfin.writes_round, ?_, hfin.rounds_planes⟩
  · rw [phaseBStep_orig_false]
    exact List.Nodup.sublist (selectFalse_sublist _ _) inv.orig_nodup
  · intro i hi
    rw [phaseBStep_labels, writeLabels_length]
    exact inv.orig_lt i (hsubF i hi)
  · intro i hi
    rw [phaseBStep_labels]
    have hne : ∀ w ∈ wsOf o thr nrm k st cand, w.1 ≠ i := by
      intro w hw heq
      apply hnotT i hi
      rw [← heq]
      exact (wsOf_mem o thr nrm k st cand w hw).2
    rw [writeLabels_not_mem _ _ _ hne]
    exact inv.orig_label0 i (hsubF i hi)
  · exact hlen
  · rw [phaseBStep_orig_false]
    show List.Forall₂ _ (phaseBStep o thr nrm k cand false st).pts _
    rw [phaseBStep_pts_false]
    exact forall2_selectFalse inv.pts_orig _
  · intro w hw
    rw [phaseBStep_writes] at hw
    intro hmem
    rcases List.mem_append.mp hw with hold | hnew
    · exact inv.writes_not_orig w hold (hsubF w.1 hmem)
    · exact hnotT w.1 hmem ((wsOf_mem o thr nrm k st cand w hnew).2)
  · rw [phaseBStep_rounds, List.length_append, List.length_cons, List.length_nil]
    have := inv.k_eq
    omega

theorem phaseBLoop_final (o : Oracle) (thr : ℚ) (nrm : Option (Point × ℚ))
    (cloud0 : List Point) : ∀ (cs : List Plane) (k : ℕ) (st : BState),
    BInv cloud0 thr k st → BFinal cloud0 thr (phaseBLoop o thr nrm cs k st) := by
  intro cs
  induction cs with
  | nil =>
    intro k st inv
    exact ⟨inv.writes_nodup, inv.labels_writes, inv.writes_label, inv.writes_round,
      inv.rounds_planes⟩
  | cons c cs ih =>
    intro k st inv
    cases cs with
    | nil => exact (phaseBStep_final o thr nrm cloud0 k st c true inv).1
    | cons c2 cs2 =>
      rw [phaseBLoop]
      exact ih (k + 1) _ (phaseBStep_inv o thr nrm cloud0 k st c inv)

theorem get_planes_final (o : Oracle) (cloud : List Point) (thr : ℚ) (mi des : ℕ)
    (grid : ℚ) (nrm : Option (Point × ℚ)) :
    BFinal cloud thr (get_planes o cloud thr mi des grid nrm) := by
  simp only [get_planes]
  apply phaseBLoop_final
  refine ⟨List.nodup_range _, ?_, ?_, by simp, forall2_getD_range cloud, List.nodup_nil,
    ?_, ?_, ?_, ?_, rfl, ?_⟩
  · intro i hi
    simp only [List.length_replicate]
    exact List.mem_range.mp hi
  · intro i _
    exact getD_replicate_zero _ _
  · intro i hne
    exact absurd (getD_replicate_zero cloud.length i) hne
  · intro w hw
    cases hw
  · intro w hw
    cases hw
  · intro w hw
    cases hw
  · intro q hq
    cases hq

/-- Claim C10: across the whole Phase-B loop each original point is
labeled at most once (the write-event trace has pairwise distinct
indices), every nonzero entry of the final label map is backed by the
write event of exactly the round that removed the point, and every write
survives into the final label map (no overwrites). -/
theorem ransac_C10 : ∀ (o : Oracle) (cloud : List Point) (thr : ℚ) (mi des : ℕ)
    (grid : ℚ) (nrm : Option (Point × ℚ)),
    (((get_planes o cloud thr mi des grid nrm).writes.map Prod.fst).Nodup) ∧
    (∀ i : ℕ, (get_planes o cloud thr mi des grid nrm).labels.getD i 0 = 0 ∨
      (i, (get_planes o cloud thr mi des grid nrm).labels.getD i 0) ∈
        (get_planes o cloud thr mi des grid nrm).writes) ∧
    (∀ w ∈ (get_planes o cloud thr mi des grid nrm).writes,
      (get_planes o cloud thr mi des grid nrm).labels.getD w.1 0 = w.2) := by
  intro o cloud thr mi des grid nrm
  have h := get_planes_final o cloud thr mi des grid nrm
  refine ⟨h.writes_nodup, ?_, h.writes_label⟩
  intro i
  by_cases hz : (get_planes o cloud thr mi des grid nrm).labels.getD i 0 = 0
  · exact Or.inl hz
  · exact Or.inr (h.labels_writes i hz)

/-- Witness for C10 at the concrete 6-point run: the write event of point 0
in round 1 matches its final label. -/
theorem ransac_C10_witness :
    (0, 1) ∈ runC3.writes ∧ runC3.labels.getD 0 0 = 1 :=
  ⟨of_decide_eq_true (by with_unfolding_all rfl),
   (ransac_C10 oId cloudC3 1 1 2 0 none).2.2 (0, 1)
     (of_decide_eq_true (by with_unfolding_all rfl))⟩

/-- Claim C1 amended: every input point with label `k ≥ 1` satisfies the
strict normalized-distance bound for the plane refined in Phase-B round
`k` — the `k`-th plane in *discovery* order, not the `k`-th entry of the
RankedPlaneList — and every round's plane does appear (at its rank
position) in the returned list. -/
theorem ransac_C1_amended : ∀ (o : Oracle) (cloud : List Point) (thr : ℚ) (mi des : ℕ)
    (grid : ℚ) (nrm : Option (Point × ℚ)),
    (∀ i : ℕ, (get_planes o cloud thr mi des grid nrm).labels.getD i 0 = 0 ∨
      (1 ≤ (get_planes o cloud thr mi des grid nrm).labels.getD i 0 ∧
       (get_planes o cloud thr mi des grid nrm).labels.getD i 0 ≤
         (get_planes o cloud thr mi des grid nrm).rounds.length ∧
       isInlier ((get_planes o cloud thr mi des grid nrm).rounds.getD
           ((get_planes o cloud thr mi des grid nrm).labels.getD i 0 - 1) pl0) thr
         (cloud.getD i pt0) = true)) ∧
    (∀ q ∈ (get_planes o cloud thr mi des grid nrm).rounds,
      q ∈ (get_planes o cloud thr mi des grid nrm).planes) := by
  intro o cloud thr mi des grid nrm
  have h := get_planes_final o cloud thr mi des grid nrm
  refine ⟨?_, h.rounds_planes⟩
  intro i
  by_cases hz : (get_planes o cloud thr mi des grid nrm).labels.getD i 0 = 0
  · exact Or.inl hz
  · exact Or.inr (h.writes_round _ (h.labels_writes i hz))

/-- Witness for the amended C1 at the concrete 6-point run: point 0 is
labeled 1 and is an inlier of the round-1 plane `z = 0`, which appears in
the returned list. -/
theorem ransac_C1_amended_witness :
    Plane.mk 0 0 1 0 ∈ runC3.rounds ∧ Plane.mk 0 0 1 0 ∈ runC3.planes :=
  ⟨of_decide_eq_true (by with_unfolding_all rfl),
   (ransac_C1_amended oId cloudC3 1 1 2 0 none).2 (Plane.mk 0 0 1 0)
     (of_decide_eq_true (by with_unfolding_all rfl))⟩

/-- Witness for C8 at a two-point cloud. -/
theorem ransac_C8_witness :
    ([pt0, Point.mk 1 0 0] : List Point).length < 3 ∧
    get_plane oId [pt0, Point.mk 1 0 0] 1 5 none =
      ⟨0, none, List.replicate ([pt0, Point.mk 1 0 0] : List Point).length false, []⟩ ∧
    phaseA oId 1 5 none 3 [pt0, Point.mk 1 0 0] = [] :=
  ⟨by norm_num,
   ransac_C8.1 oId [pt0, Point.mk 1 0 0] 1 5 none (by norm_num),
   ransac_C8.2.1 oId [pt0, Point.mk 1 0 0] 1 5 none
     (by rw [ransac_C8.1 oId [pt0, Point.mk 1 0 0] 1 5 none (by norm_num)]) 3⟩

end Ransac
